import Mathlib

/-!
Verification of the latex-toolkit repository (three Python pipelines:
`find_new_figures.py`, `latex_bib_processor.py`, `reset_figure_names.py`)
against its natural-language specification.

Strings are modelled as `List Char` (`Str`).  Regular-expression matching
is embedded by hand-compiled deterministic matchers that follow the
backtracking behaviour of the concrete patterns in the source; character
classes `\s`, `\d`, `\w` are modelled over ASCII, matching the documents the
tool targets.  Python's stable `list.sort` / `sorted` is embedded as a
stable insertion sort, and Python `dict` as an insertion-ordered
association list with last-write-wins update.
-/

set_option maxRecDepth 20000

abbrev Str := List Char

/-- Python `\s` (ASCII whitespace, as used by `str.strip` and `re` here). -/
def pyIsSpace (c : Char) : Bool :=
  c = ' ' || c = '\t' || c = '\n' || c = '\r' || c = '\x0b' || c = '\x0c'

/-- Python `\d` over ASCII. -/
def isDigitCh (c : Char) : Bool := '0' ≤ c && c ≤ '9'

/-- Python `\w` over ASCII. -/
def isWordCh (c : Char) : Bool := c.isAlpha || isDigitCh c || c = '_'

/-- Python `str.strip()` (ASCII whitespace). -/
def stripWs (s : Str) : Str :=
  ((s.dropWhile pyIsSpace).reverse.dropWhile pyIsSpace).reverse

/-- Index of the first occurrence of `pat` in `s`, if any (Python `str.find`
returns it, or `-1`). -/
def findSub (pat : Str) : Str → Option Nat
  | [] => if pat.isPrefixOf ([] : Str) then some 0 else none
  | c :: t => if pat.isPrefixOf (c :: t) then some 0 else (findSub pat t).map (· + 1)

/-- Python `str.find` (with `-1` for absence). -/
def pyFind (s pat : Str) : Int :=
  match findSub pat s with
  | some i => (i : Int)
  | none => -1

/-- Python `str.find(pat, start)` as an `Option Nat`. -/
def pyFindFromN (s pat : Str) (start : Nat) : Option Nat :=
  (findSub pat (s.drop start)).map (· + start)

/-- Python `pat in s`. -/
def occursIn (s pat : Str) : Bool := (findSub pat s).isSome

/-- Python `s.replace(old, new, 1)`. -/
def replaceFirst (s old new : Str) : Str :=
  match findSub old s with
  | some i => s.take i ++ new ++ s.drop (i + old.length)
  | none => s

/-- Python lowercase of a string (ASCII, via `Char.toLower`). -/
def lowerStr (s : Str) : Str := s.map Char.toLower

/-- `sub in s` as used for keyword tests. -/
def containsSub (s sub : Str) : Bool := (findSub sub s).isSome

/-- Decimal digits, most significant first, with structural fuel (the
number of digits of `n` is at most `n + 1`, so the fuel never runs out). -/
def natDigitsAux : Nat → Nat → List Char
  | _, 0 => []
  | n, fuel + 1 =>
    if n < 10 then [Char.ofNat (48 + n % 10)]
    else natDigitsAux (n / 10) fuel ++ [Char.ofNat (48 + n % 10)]

/-- Decimal digits of a natural number, most significant first
(the rendering of a nonnegative `int` by a Python f-string). -/
def natDigits (n : Nat) : List Char := natDigitsAux n (n + 1)

/-- Python `s.split(sep)` for a single-character separator. -/
def splitOn (sep : Char) : Str → List Str
  | [] => [[]]
  | c :: t =>
    match splitOn sep t with
    | [] => [[c]]
    | h :: r => if c = sep then [] :: h :: r else (c :: h) :: r

/-! ### Stable sort by an integer key (Python `list.sort(key=...)` / `sorted`) -/

/-- Insert `x` into `l` before the first element whose key is not smaller:
with `sortKey` this is a stable ascending sort. -/
def insKey (key : α → Int) (x : α) : List α → List α
  | [] => [x]
  | y :: ys => if key y < key x then y :: insKey key x ys else x :: y :: ys

/-- Stable ascending insertion sort by `key` — the embedding of Python's
stable `sort(key=...)`; descending (`reverse=True`) sorts are obtained by
negating the key. -/
def sortKey (key : α → Int) : List α → List α
  | [] => []
  | x :: xs => insKey key x (sortKey key xs)

/-! ### First-occurrence deduplication (the `seen`-set loop of
`extract_citations_from_tex`) -/

/-- The `seen`-set loop: keep the first occurrence of each element. -/
def dedupeFirstAux [DecidableEq α] (seen : List α) : List α → List α
  | [] => []
  | x :: xs =>
    if x ∈ seen then dedupeFirstAux seen xs
    else x :: dedupeFirstAux (x :: seen) xs

def dedupeFirst [DecidableEq α] (l : List α) : List α := dedupeFirstAux [] l

/-! ### Lexicographic order on strings (Python `sorted` over `str`,
which compares code points) -/

def lexLt : Str → Str → Bool
  | [], [] => false
  | [], _ :: _ => true
  | _ :: _, [] => false
  | a :: as, b :: bs =>
    if a.toNat < b.toNat then true
    else if b.toNat < a.toNat then false
    else lexLt as bs

/-- Insert into a lexicographically sorted list (stable). -/
def insLex (x : Str) : List Str → List Str
  | [] => [x]
  | y :: ys => if lexLt y x then y :: insLex x ys else x :: y :: ys

/-- Python `sorted` over strings. -/
def sortLex : List Str → List Str
  | [] => []
  | x :: xs => insLex x (sortLex xs)

/-! ### The figure-prefix pattern `^fig_s?(\d+)_(.+)$` of
`reset_figure_names.py` (`self.prefix_pattern`) and `generate_new_filename` -/

def headIsDigit : Str → Bool
  | c :: _ => isDigitCh c
  | [] => false

/-- After `fig_` and the optional `s`: the greedy `(\d+)` run, a literal
underscore, and the remainder handed to `(.+)$`. -/
def digitsThen (t : Str) : Option Str :=
  let ds := t.takeWhile isDigitCh
  if ds.isEmpty then none
  else
    match t.dropWhile isDigitCh with
    | '_' :: rest => some rest
    | _ => none

/-- The split `fig_s?<digits>_` / remainder, with an arbitrary (possibly
empty) remainder.  This is the claim-literal reading of "an existing prefix
matching `fig_s?<digits>_`". -/
def splitFigDigits : Str → Option Str
  | 'f' :: 'i' :: 'g' :: '_' :: t =>
    (match t with
     | 's' :: u => if headIsDigit u then digitsThen u else digitsThen t
     | _ => digitsThen t)
  | _ => none

/-- `.` of the pattern (no `DOTALL` here): any character except newline. -/
def nonNl (c : Char) : Bool := c != '\n'

/-- Group 2 of `(.+)$` (no `MULTILINE`): a nonempty newline-free run reaching
the end of the string or a single trailing newline. -/
def restOk (rest : Str) : Option Str :=
  if (rest.takeWhile nonNl).isEmpty then none
  else
    match rest.dropWhile nonNl with
    | [] => some (rest.takeWhile nonNl)
    | ['\n'] => some (rest.takeWhile nonNl)
    | _ => none

/-- `self.prefix_pattern.match(filename)`, returning group 2. -/
def prefixRest (f : Str) : Option Str := (splitFigDigits f).bind restOk

/-- `generate_new_filename` from `reset_figure_names.py`. -/
def generate_new_filename (filename expected : Str) : Str :=
  match prefixRest filename with
  | some rest => expected ++ rest
  | none => expected ++ filename

/-- The literal string `fig_s?<digits>_` (declarative building block used to
characterize the matcher). -/
def figTok (s : Bool) (ds : Str) : Str :=
  'f' :: 'i' :: 'g' :: '_' :: ((if s then ['s'] else []) ++ ds ++ ['_'])

/-! ### reset_figure_names.py — data model and extraction -/

/-- Characters of a Lean string literal. -/
def strL (s : String) : Str := s.data

structure ImageInfo where
  full_command : Str
  path : Str
  pre : Str
  suf : Str
  position_in_doc : Nat
deriving DecidableEq

structure FigureEnvironment where
  position : Nat
  content : Str
  images : List ImageInfo
deriving DecidableEq

structure ProcessingResult where
  figure_label : Str
  original_path : Str
  new_path : Str
  needs_rename : Bool
deriving DecidableEq

/-- `\begin{figure}` / `\begin{figure*}` at the head (the `\*?` of
`figure_pattern` tries the starless form first). -/
def figBeginLen (s : Str) : Option Nat :=
  if (strL "\\begin\x7bfigure\x7d").isPrefixOf s then some 14
  else if (strL "\\begin\x7bfigure*\x7d").isPrefixOf s then some 15
  else none

/-- `\end{figure}` / `\end{figure*}` at the head. -/
def figEndLen (s : Str) : Option Nat :=
  if (strL "\\end\x7bfigure\x7d").isPrefixOf s then some 12
  else if (strL "\\end\x7bfigure*\x7d").isPrefixOf s then some 13
  else none

/-- The non-greedy `.*?\end{figure\*?}` (with `DOTALL`): the first end token
at or after `j`; returns the position just past it. -/
def findFigEnd (text : Str) (j : Nat) : Nat → Option Nat
  | 0 => none
  | fuel + 1 =>
    match figEndLen (text.drop j) with
    | some l => some (j + l)
    | none => if j < text.length then findFigEnd text (j + 1) fuel else none

/-- `figure_pattern.finditer`: left-to-right non-overlapping matches as
(start, stop) spans. -/
def figSpansAux (text : Str) (i : Nat) : Nat → List (Nat × Nat)
  | 0 => []
  | fuel + 1 =>
    match figBeginLen (text.drop i) with
    | some bl =>
      match findFigEnd text (i + bl) (text.length + 1) with
      | some q => (i, q) :: figSpansAux text q fuel
      | none => if i < text.length then figSpansAux text (i + 1) fuel else []
    | none => if i < text.length then figSpansAux text (i + 1) fuel else []

def figureSpans (text : Str) : List (Nat × Nat) := figSpansAux text 0 (text.length + 1)

def imgLit : Str := strL "\\includegraphics"

/-- The `(?:\s*\[[^\]]*\])*\s*\{` part of `img_pattern`: consume any number
of bracketed option groups, then the opening brace; returns (consumed text
including the brace, remainder). -/
def imgBrackets (s : Str) : Nat → Option (Str × Str)
  | 0 => none
  | fuel + 1 =>
    match s.dropWhile pyIsSpace with
    | '[' :: r2 =>
      (match r2.dropWhile (fun c => c ≠ ']') with
       | ']' :: r4 =>
         (imgBrackets r4 fuel).map (fun pr =>
           (s.takeWhile pyIsSpace ++ '[' :: (r2.takeWhile (fun c => c ≠ ']') ++ ']' :: pr.1),
            pr.2))
       | _ => none)
    | '\x7b' :: r2 => some (s.takeWhile pyIsSpace ++ ['\x7b'], r2)
    | _ => none

/-- `img_pattern` at the head of `s`: returns (group 1, group 2, length of
the whole match); group 3 is always the closing brace. -/
def imgMatchAt (s : Str) : Option (Str × Str × Nat) :=
  if imgLit.isPrefixOf s then
    match imgBrackets (s.drop 16) (s.length + 1) with
    | some g1t =>
      let p := g1t.2.takeWhile (fun c => c ≠ '\x7d')
      if p.isEmpty then none
      else
        match g1t.2.dropWhile (fun c => c ≠ '\x7d') with
        | '\x7d' :: _ => some (imgLit ++ g1t.1, p, 16 + g1t.1.length + p.length + 1)
        | _ => none
    | none => none
  else none

/-- `img_pattern.findall` over a figure environment body. -/
def imgMatchesAux (s : Str) : Nat → List (Str × Str)
  | 0 => []
  | fuel + 1 =>
    match imgMatchAt s with
    | some m => (m.1, m.2.1) :: imgMatchesAux (s.drop m.2.2) fuel
    | none =>
      match s with
      | [] => []
      | _ :: t => imgMatchesAux t fuel

def imgMatches (s : Str) : List (Str × Str) := imgMatchesAux s (s.length + 1)

def IMAGE_EXTENSIONS : List Str :=
  [strL ".pdf", strL ".png", strL ".jpg", strL ".jpeg", strL ".eps", strL ".svg"]

def FIGURE_KEYWORDS : List Str := [strL "figure", strL "fig", strL "image"]

/-- Final path component (text after the last `/`). -/
def pathBasename (p : Str) : Str := ((p.reverse).takeWhile (fun c => c ≠ '/')).reverse

/-- `pathlib.Path(p).suffix`: the last dot-suffix of the final component,
empty when the dot is leading or absent. -/
def pathSuffix (p : Str) : Str :=
  let name := pathBasename p
  let ext := (name.reverse).takeWhile (fun c => c ≠ '.')
  if ext.length + 1 < name.length then '.' :: ext.reverse else []

/-- `is_image_file` from `reset_figure_names.py`. -/
def is_image_file (path : Str) : Bool :=
  let pl := lowerStr path
  if IMAGE_EXTENSIONS.any (fun e => e.isSuffixOf pl) then true
  else if FIGURE_KEYWORDS.any (fun k => containsSub pl k) then true
  else if (pathSuffix path).isEmpty && FIGURE_KEYWORDS.any (fun k => containsSub pl k) then
    true
  else false

/-- The images of one figure environment: pattern hits whose (stripped) path
passes `is_image_file`, located back in the whole document with
`tex_content.find(full_command, figure_start)`. -/
def imagesInFigure (text content : Str) (figStart : Nat) : List ImageInfo :=
  (imgMatches content).filterMap (fun m =>
    let ipath := stripWs m.2
    if is_image_file ipath then
      match pyFindFromN text (m.1 ++ m.2 ++ ['\x7d']) figStart with
      | some cs => some ⟨m.1 ++ m.2 ++ ['\x7d'], ipath, m.1, ['\x7d'], cs⟩
      | none => none
    else none)

/-- `extract_figure_environments`: keep only environments with at least one
image, sort images by document position, sort environments by position. -/
def extract_figure_environments (text : Str) : List FigureEnvironment :=
  sortKey (fun e => (e.position : Int))
    ((figureSpans text).filterMap (fun sp =>
      let imgs := sortKey (fun im => (im.position_in_doc : Int))
        (imagesInFigure text ((text.drop sp.1).take (sp.2 - sp.1)) sp.1)
      if imgs.isEmpty then none
      else some ⟨sp.1, (text.drop sp.1).take (sp.2 - sp.1), imgs⟩))

def apLit : Str := strL "\\appendix"

/-- `\appendix\b` at the head: the word boundary needs a non-word character
(or the end) after `appendix`. -/
def appendixAt (s : Str) : Bool :=
  apLit.isPrefixOf s &&
    (match s.drop 9 with
     | [] => true
     | c :: _ => !(isWordCh c))

def findAppendixAux (text : Str) (i : Nat) : Nat → Option Nat
  | 0 => none
  | fuel + 1 =>
    if appendixAt (text.drop i) then some i
    else if i < text.length then findAppendixAux text (i + 1) fuel else none

def findAppendixIdx (text : Str) : Option Nat := findAppendixAux text 0 (text.length + 1)

/-- `find_appendix_position`: offset of the marker, or the document length. -/
def find_appendix_position (text : Str) : Nat :=
  match findAppendixIdx text with
  | some i => i
  | none => text.length

/-- `extract_directory_and_filename`: split at the last `/` (directory keeps
the slash); no slash gives an empty directory part. -/
def extract_directory_and_filename (p : Str) : Str × Str :=
  (((p.reverse).dropWhile (fun c => c ≠ '/')).reverse,
   ((p.reverse).takeWhile (fun c => c ≠ '/')).reverse)

/-- The prefix `fig_<n>_` (main) / `fig_s<n>_` (appendix) from
`analyze_all_figures`. -/
def expectedPre (isApp : Bool) (n : Nat) : Str := figTok isApp (natDigits n)

/-- The label `Fig <n>` / `Fig S<n>`. -/
def figLabelStr (isApp : Bool) (n : Nat) : Str :=
  strL "Fig " ++ (if isApp then ['S'] else []) ++ natDigits n

/-- `process_single_image`: the plan entry, and the modification recorded in
`self.modifications` when a rename is needed. -/
def process_single_image (img : ImageInfo) (pre lbl : Str) :
    ProcessingResult × Option (Str × Str) :=
  let dirFn := extract_directory_and_filename img.path
  let newPath := dirFn.1 ++ generate_new_filename dirFn.2 pre
  (⟨lbl, img.path, newPath, decide (img.path ≠ newPath)⟩,
   if decide (img.path ≠ newPath) then
     some (img.full_command, img.pre ++ newPath ++ img.suf)
   else none)

/-- Python `enumerate(l, n)`. -/
def enumFromN (n : Nat) : List α → List (Nat × α)
  | [] => []
  | x :: xs => (n, x) :: enumFromN (n + 1) xs

/-- One partition's loop of `analyze_all_figures` (1-based enumeration). -/
def processEnvs (isApp : Bool) (envs : List FigureEnvironment) :
    List (ProcessingResult × Option (Str × Str)) :=
  (enumFromN 1 envs).bind (fun p =>
    p.2.images.map (fun img =>
      process_single_image img (expectedPre isApp p.1) (figLabelStr isApp p.1)))

/-- Python `dict` assignment `d[k] = v`: overwrite in place, else append. -/
def dictUpd (d : List (Str × Str)) (k v : Str) : List (Str × Str) :=
  match d with
  | [] => [(k, v)]
  | e :: t => if e.1 = k then (k, v) :: t else e :: dictUpd t k v

def collectMods (steps : List (ProcessingResult × Option (Str × Str))) :
    List (Str × Str) :=
  steps.foldl (fun d s =>
    match s.2 with
    | some kv => dictUpd d kv.1 kv.2
    | none => d) []

/-- `analyze_all_figures` (after extraction): partition at the appendix
offset, enumerate each partition from 1, process every image; returns the
plan and the `modifications` dict. -/
def analyze_all_figures (envs : List FigureEnvironment) (ap : Nat) :
    List ProcessingResult × List (Str × Str) :=
  let parts := envs.partition (fun e => decide (e.position < ap))
  let steps := processEnvs false parts.1 ++ processEnvs true parts.2
  (steps.map (fun s => s.1), collectMods steps)

/-- The whole analysis phase on a document. -/
def analyzeTex (text : Str) : List ProcessingResult × List (Str × Str) :=
  analyze_all_figures (extract_figure_environments text) (find_appendix_position text)

/-- `save_modified_tex`: replacements sorted by the target's offset in the
original text, descending (`reverse=True`; stable). -/
def sortedMods (text : Str) (mods : List (Str × Str)) : List (Str × Str) :=
  sortKey (fun p => - pyFind text p.1) mods

/-- One replacement step: replace the first occurrence once, or record the
missing target as a warning and continue. -/
def applyModStep (acc : Str × List Str) (m : Str × Str) : Str × List Str :=
  if occursIn acc.1 m.1 then (replaceFirst acc.1 m.1 m.2, acc.2)
  else (acc.1, acc.2 ++ [m.1])

/-- The text-rewriting core of `save_modified_tex`: the new document text and
the list of warned-about missing targets. -/
def save_modified_tex (text : Str) (mods : List (Str × Str)) : Str × List Str :=
  (sortedMods text mods).foldl applyModStep (text, [])

/-! ### latex_bib_processor.py — citation extraction -/

def citeCmds : List Str :=
  [strL "cite", strL "citep", strL "citet", strL "citealp", strL "citealt",
   strL "citeauthor", strL "citeyear", strL "nocite",
   strL "Cite", strL "Citep", strL "Citet"]

/-- Case-insensitive literal prefix match (`re.IGNORECASE`). -/
def ciPrefix : Str → Str → Bool
  | [], _ => true
  | _ :: _, [] => false
  | p :: ps, c :: cs => p.toLower = c.toLower && ciPrefix ps cs

/-- `\\<cmd>\{([^}]+)\}` with `IGNORECASE` at the head of `s`: returns
(match length, group 1). -/
def matchCiteAt (cmd s : Str) : Option (Nat × Str) :=
  if ciPrefix ('\\' :: (cmd ++ ['\x7b'])) s then
    let rest := s.drop (cmd.length + 2)
    let key := rest.takeWhile (fun c => c ≠ '\x7d')
    if key.isEmpty then none
    else
      match rest.dropWhile (fun c => c ≠ '\x7d') with
      | '\x7d' :: _ => some (cmd.length + 2 + key.length + 1, key)
      | _ => none
  else none

/-- `re.finditer` for one citation pattern: (offset, group 1) pairs. -/
def scanCiteAux (cmd : Str) (s : Str) (pos : Nat) : Nat → List (Nat × Str)
  | 0 => []
  | fuel + 1 =>
    match matchCiteAt cmd s with
    | some m => (pos, m.2) :: scanCiteAux cmd (s.drop m.1) (pos + m.1) fuel
    | none =>
      match s with
      | [] => []
      | _ :: t => scanCiteAux cmd t (pos + 1) fuel

def scanCite (cmd text : Str) : List (Nat × Str) := scanCiteAux cmd text 0 (text.length + 1)

/-- Python `str.isspace()`. -/
def pyIsSpaceStr (s : Str) : Bool := !s.isEmpty && s.all pyIsSpace

/-- `citations_with_pos` in discovery order: per pattern, per match, per
comma-separated stripped nonempty key. -/
def citationPairs (text : Str) : List (Nat × Str) :=
  ((citeCmds.map (fun cmd => scanCite cmd text)).join).bind (fun m =>
    (splitOn ',' m.2).filterMap (fun k0 =>
      let k := stripWs k0
      if !k.isEmpty && !(pyIsSpaceStr k) then some (m.1, k) else none))

/-- `self.cited_keys`: keys sorted by position (stable). -/
def cited_keys (text : Str) : List Str :=
  (sortKey (fun p => (p.1 : Int)) (citationPairs text)).map (fun p => p.2)

/-- `self.unique_cited_keys`: first occurrences, in order. -/
def unique_cited_keys (text : Str) : List Str := dedupeFirst (cited_keys text)

/-- `analyze_citations` (on the parsed data): missing keys in citation
order, unused keys alphabetically. -/
def analyze_citations (bibKeys : List Str) (uniqueCited : List Str) :
    List Str × List Str :=
  (uniqueCited.filter (fun k => decide (k ∉ bibKeys)),
   sortLex (bibKeys.filter (fun k => decide (k ∉ uniqueCited))))

/-! ### latex_bib_processor.py — BibTeX entry parsing -/

/-- `@\w+\s*\{\s*([^,\s}]+)\s*,` at the head of `s`: (consumed length, key). -/
def parseEntryKeyAt (s : Str) : Option (Nat × Str) :=
  match s with
  | '@' :: t =>
    let w := t.takeWhile isWordCh
    if w.isEmpty then none
    else
      let t1 := t.drop w.length
      let ws1 := t1.takeWhile pyIsSpace
      match t1.drop ws1.length with
      | '\x7b' :: t3 =>
        let ws2 := t3.takeWhile pyIsSpace
        let t4 := t3.drop ws2.length
        let key := t4.takeWhile (fun c => !(c = ',' || pyIsSpace c || c = '\x7d'))
        if key.isEmpty then none
        else
          let t5 := t4.drop key.length
          let ws3 := t5.takeWhile pyIsSpace
          match t5.drop ws3.length with
          | ',' :: _ =>
            some (1 + w.length + ws1.length + 1 + ws2.length + key.length
              + ws3.length + 1, key)
          | _ => none
      | _ => none
  | _ => none

/-- The lookahead `(?=\n\s*@|\n\s*$|\Z)` (with `MULTILINE`, so `$` also
matches before any newline). -/
def lookaheadOkER (text : Str) (i : Nat) : Bool :=
  if i = text.length then true
  else
    match text.drop i with
    | '\n' :: r =>
      (match r.dropWhile pyIsSpace with
       | '@' :: _ => true
       | _ => false) ||
      (match r.dropWhile (fun c => pyIsSpace c && c ≠ '\n') with
       | [] => true
       | '\n' :: _ => true
       | _ => false)
    | _ => false

/-- Minimal stop for the non-greedy `.*?` before the lookahead (`\Z` always
matches at the end, so a stop exists). -/
def findEntryEnd (text : Str) (j : Nat) : Nat → Nat
  | 0 => j
  | fuel + 1 => if lookaheadOkER text j then j else findEntryEnd text (j + 1) fuel

/-- `bib_entry_pattern.findall`: (full entry text, key) pairs in document
order. -/
def scanEntriesAux (text : Str) (i : Nat) : Nat → List (Str × Str)
  | 0 => []
  | fuel + 1 =>
    if i < text.length then
      match parseEntryKeyAt (text.drop i) with
      | some pk =>
        ((text.drop i).take (findEntryEnd text (i + pk.1) (text.length + 1) - i), pk.2)
          :: scanEntriesAux text (findEntryEnd text (i + pk.1) (text.length + 1)) fuel
      | none => scanEntriesAux text (i + 1) fuel
    else []

def entryMatches (text : Str) : List (Str × Str) := scanEntriesAux text 0 (text.length + 1)

/-- `parse_bib_entries`: the `bib_entries` dict (strip the key, skip empty
keys, store the stripped entry; later entries overwrite earlier ones). -/
def parse_bib_entries (text : Str) : List (Str × Str) :=
  (entryMatches text).foldl (fun d m =>
    if (stripWs m.2).isEmpty then d
    else dictUpd d (stripWs m.2) (stripWs m.1)) []

/-- First-match association-list lookup (Python `dict` access / `in`). -/
def alookup (d : List (Str × α)) (k : Str) : Option α :=
  match d with
  | [] => none
  | e :: t => if e.1 = k then some e.2 else alookup t k

/-! ### find_new_figures.py — image extraction, comparison, copying -/

/-- `includegraphics_pattern` (single optional option group) at the head:
returns (group 1, total match length). -/
def ig1MatchAt (s : Str) : Option (Str × Nat) :=
  if imgLit.isPrefixOf s then
    let t := s.drop 16
    let wsA := t.takeWhile pyIsSpace
    let core : Option (Nat × Str) :=
      match t.drop wsA.length with
      | '[' :: r2 =>
        (match r2.dropWhile (fun c => c ≠ ']') with
         | ']' :: r4 =>
           some (wsA.length + 1 + (r2.takeWhile (fun c => c ≠ ']')).length + 1, r4)
         | _ => none)
      | _ => some (0, t)
    match core with
    | some co =>
      let ws2 := co.2.takeWhile pyIsSpace
      match co.2.drop ws2.length with
      | '\x7b' :: r3 =>
        let p := r3.takeWhile (fun c => c ≠ '\x7d')
        if p.isEmpty then none
        else
          match r3.dropWhile (fun c => c ≠ '\x7d') with
          | '\x7d' :: _ => some (p, 16 + co.1 + ws2.length + 1 + p.length + 1)
          | _ => none
      | _ => none
    | none => none
  else none

/-- `includegraphics_pattern.findall`. -/
def ig1MatchesAux (s : Str) : Nat → List Str
  | 0 => []
  | fuel + 1 =>
    match ig1MatchAt s with
    | some m => m.1 :: ig1MatchesAux (s.drop m.2) fuel
    | none =>
      match s with
      | [] => []
      | _ :: t => ig1MatchesAux t fuel

def ig1Matches (s : Str) : List Str := ig1MatchesAux s (s.length + 1)

/-- `os.path.splitext` on a basename: (root, extension). -/
def splitextStem (b : Str) : Str × Str :=
  let revE := (b.reverse).takeWhile (fun c => c ≠ '.')
  if revE.length = b.length then (b, [])
  else
    let root := b.take (b.length - revE.length - 1)
    if root.all (fun c => c = '.') then (b, [])
    else (root, '.' :: revE.reverse)

/-- `extract_images_from_tex` (on loaded text): the set of referenced image
basenames; a missing extension fans out over the candidate list. -/
def extract_images_from_tex (text : Str) (exts : List Str) : Finset Str :=
  (ig1Matches text).foldl (fun acc m =>
    let fname := pathBasename (stripWs m)
    if (splitextStem fname).2.isEmpty then
      exts.foldl (fun a e => insert ((splitextStem fname).1 ++ e) a) acc
    else insert fname acc) ∅

structure ComparisonResult where
  old_images : Finset Str
  new_images : Finset Str
  added_images : Finset Str
  removed_images : Finset Str
  common_images : Finset Str

/-- `compare_tex_files` (on loaded texts). -/
def compare_tex_files (oldText newText : Str) (exts : List Str) : ComparisonResult :=
  ⟨extract_images_from_tex oldText exts,
   extract_images_from_tex newText exts,
   extract_images_from_tex newText exts \ extract_images_from_tex oldText exts,
   extract_images_from_tex oldText exts \ extract_images_from_tex newText exts,
   extract_images_from_tex oldText exts ∩ extract_images_from_tex newText exts⟩

/-! ### Copy operations, over an abstract directory model
(association list of file name to contents; the contents type is abstract).
Per-item exceptions of `shutil` are outside the model. -/

structure CopyImagesState (β : Type) where
  dst : List (Str × β)
  copied : List Str
  missing : List Str
  failed : List Str
  skippedRep : List Str

/-- One iteration of the `copy_images` loop of `find_new_figures.py`: an
existing destination is only logged as skipped (the `CopyResult` lists are
untouched); otherwise copy or record as missing. -/
def copy_images_step (src : List (Str × β)) (st : CopyImagesState β) (image : Str) :
    CopyImagesState β :=
  match alookup src image with
  | some c =>
    match alookup st.dst image with
    | some _ => { st with skippedRep := st.skippedRep ++ [image] }
    | none => { st with dst := st.dst ++ [(image, c)], copied := st.copied ++ [image] }
  | none => { st with missing := st.missing ++ [image] }

def copy_images (imgs : List Str) (src dst0 : List (Str × β)) : CopyImagesState β :=
  imgs.foldl (copy_images_step src) ⟨dst0, [], [], [], []⟩

structure CopyRenameState (β : Type) where
  dst : List (Str × β)
  copied : Nat
  skipped : Nat
  failed : Nat
  failedList : List Str
  skippedRep : List Str

/-- One iteration of the `copy_and_rename_figures` loop of
`reset_figure_names.py`. -/
def copy_and_rename_step (src : List (Str × β)) (st : CopyRenameState β)
    (r : ProcessingResult) : CopyRenameState β :=
  let targetName :=
    if r.needs_rename then (extract_directory_and_filename r.new_path).2
    else (extract_directory_and_filename r.original_path).2
  match alookup src r.original_path with
  | none =>
    { st with failed := st.failed + 1, failedList := st.failedList ++ [r.original_path] }
  | some c =>
    match alookup st.dst targetName with
    | some _ =>
      { st with skipped := st.skipped + 1, skippedRep := st.skippedRep ++ [targetName] }
    | none => { st with dst := st.dst ++ [(targetName, c)], copied := st.copied + 1 }

def copy_and_rename_figures (results : List ProcessingResult)
    (src dst0 : List (Str × β)) : CopyRenameState β :=
  results.foldl (copy_and_rename_step src) ⟨dst0, 0, 0, 0, [], []⟩

/-! ### Spec-side definitions (for refinement comparison) -/

/-- Claim-literal new-basename rule: strip a basename prefix of the shape
`fig_s?<digits>_` whenever one is present (with an arbitrary remainder), else
prepend. -/
def claimRename (f expected : Str) : Str :=
  match splitFigDigits f with
  | some rest => expected ++ rest
  | none => expected ++ f

/-- Claim-literal plan entry for one image under ordinal `n`. -/
def claimPlanEntry (isApp : Bool) (n : Nat) (img : ImageInfo) : ProcessingResult :=
  ⟨figLabelStr isApp n, img.path,
   (extract_directory_and_filename img.path).1 ++
     claimRename (extract_directory_and_filename img.path).2 (expectedPre isApp n),
   decide (img.path ≠
     (extract_directory_and_filename img.path).1 ++
       claimRename (extract_directory_and_filename img.path).2 (expectedPre isApp n))⟩

/-- Claim-literal plan: partition at the appendix offset, 1-based ordinals
per partition, claim-literal rename rule. -/
def claimPlan (envs : List FigureEnvironment) (ap : Nat) : List ProcessingResult :=
  (enumFromN 1 (envs.filter (fun e => decide (e.position < ap)))).bind
      (fun p => p.2.images.map (claimPlanEntry false p.1)) ++
    (enumFromN 1 (envs.filter (fun e => !(decide (e.position < ap))))).bind
      (fun p => p.2.images.map (claimPlanEntry true p.1))

def claimPlanTex (text : Str) : List ProcessingResult :=
  claimPlan (extract_figure_environments text) (find_appendix_position text)

/-- Amended plan entry: as the claim, but the recognized prefix follows the
code's pattern `^fig_s?(\d+)_(.+)$` (nonempty newline-free remainder). -/
def amendedPlanEntry (isApp : Bool) (n : Nat) (img : ImageInfo) : ProcessingResult :=
  ⟨figLabelStr isApp n, img.path,
   (extract_directory_and_filename img.path).1 ++
     generate_new_filename (extract_directory_and_filename img.path).2 (expectedPre isApp n),
   decide (img.path ≠
     (extract_directory_and_filename img.path).1 ++
       generate_new_filename (extract_directory_and_filename img.path).2
         (expectedPre isApp n))⟩

/-- Amended plan (the claim with the corrected prefix-recognition rule). -/
def amendedPlan (envs : List FigureEnvironment) (ap : Nat) : List ProcessingResult :=
  (enumFromN 1 (envs.filter (fun e => decide (e.position < ap)))).bind
      (fun p => p.2.images.map (amendedPlanEntry false p.1)) ++
    (enumFromN 1 (envs.filter (fun e => !(decide (e.position < ap))))).bind
      (fun p => p.2.images.map (amendedPlanEntry true p.1))

/-- One step of the `parse_bib_entries` accumulation. -/
def bibStep (d : List (Str × Str)) (m : Str × Str) : List (Str × Str) :=
  if (stripWs m.2).isEmpty then d
  else dictUpd d (stripWs m.2) (stripWs m.1)

/-- The entries that write key `k`, in match order. -/
def bibWrites (k : Str) (ms : List (Str × Str)) : List Str :=
  ms.filterMap (fun m =>
    if stripWs m.2 = k ∧ ¬ (stripWs m.2).isEmpty then some (stripWs m.1) else none)

def w1doc : Str := strL "\\begin\x7bfigure\x7d\\includegraphics\x7ba.png\x7d\\end\x7bfigure\x7d"

def w1env : FigureEnvironment :=
  ⟨0, w1doc,
   [⟨strL "\\includegraphics\x7ba.png\x7d", strL "a.png",
     strL "\\includegraphics\x7b", strL "\x7d", 14⟩]⟩

/-! ### Claim C6 — renamer idempotence -/

def c6doc : Str :=
  strL "\\begin\x7bfigure\x7d\\includegraphics\x7bfigures/\x7d\\end\x7bfigure\x7d"

/-! ### Claim C1 — figure renumbering -/

def c1doc : Str :=
  strL "\\begin\x7bfigure\x7d\\includegraphics\x7bfig_1_\x7d\\end\x7bfigure\x7d"

theorem mem_insKey (key : α → Int) (x a : α) (l : List α) :
    a ∈ insKey key x l ↔ a = x ∨ a ∈ l := by
  induction l with
  | nil => simp [insKey]
  | cons y ys ih =>
    by_cases h : key y < key x <;> simp [insKey, h, ih] <;> tauto

theorem insKey_perm (key : α → Int) (x : α) (l : List α) :
    List.Perm (insKey key x l) (x :: l) := by
  induction l with
  | nil => simp [insKey]
  | cons y ys ih =>
    by_cases h : key y < key x
    · simpa [insKey, h] using ((ih.cons y).trans (List.Perm.swap x y ys))
    · simp [insKey, h]

theorem sortKey_perm (key : α → Int) (l : List α) : List.Perm (sortKey key l) l := by
  induction l with
  | nil => simp [sortKey]
  | cons x xs ih => exact (insKey_perm key x (sortKey key xs)).trans (ih.cons x)

theorem pairwise_insKey (key : α → Int) (x : α) (l : List α)
    (h : l.Pairwise (fun a b => key a ≤ key b)) :
    (insKey key x l).Pairwise (fun a b => key a ≤ key b) := by
  induction l with
  | nil => simp [insKey]
  | cons y ys ih =>
    rcases List.pairwise_cons.mp h with ⟨hy, hys⟩
    by_cases hc : key y < key x
    · rw [insKey, if_pos hc]
      refine List.pairwise_cons.mpr ⟨?_, ih hys⟩
      intro a ha
      rcases (mem_insKey key x a ys).mp ha with rfl | ha
      · omega
      · exact hy a ha
    · rw [insKey, if_neg hc]
      refine List.pairwise_cons.mpr ⟨?_, h⟩
      intro a ha
      rcases List.mem_cons.mp ha with rfl | ha
      · omega
      · exact le_trans (by omega) (hy a ha)

theorem sortKey_sorted (key : α → Int) (l : List α) :
    (sortKey key l).Pairwise (fun a b => key a ≤ key b) := by
  induction l with
  | nil => simp [sortKey]
  | cons x xs ih => exact pairwise_insKey key x _ ih

theorem insKey_filter (key : α → Int) (x : α) (l : List α) (k : Int) :
    (insKey key x l).filter (fun a => decide (key a = k)) =
      if key x = k then x :: l.filter (fun a => decide (key a = k))
      else l.filter (fun a => decide (key a = k)) := by
  induction l with
  | nil => by_cases h : key x = k <;> simp [insKey, h]
  | cons y ys ih =>
    by_cases hc : key y < key x
    · rw [insKey, if_pos hc]
      by_cases hy : key y = k
      · have hx : ¬ key x = k := by omega
        rw [if_neg hx] at ih ⊢
        rw [List.filter_cons_of_pos (by simpa using hy), ih,
          List.filter_cons_of_pos (by simpa using hy)]
      · rw [List.filter_cons_of_neg (by simpa using hy), ih,
          List.filter_cons_of_neg (by simpa using hy)]
    · rw [insKey, if_neg hc]
      by_cases hx : key x = k
      · rw [if_pos hx, List.filter_cons_of_pos (by simpa using hx)]
      · rw [if_neg hx, List.filter_cons_of_neg (by simpa using hx)]

theorem sortKey_filter (key : α → Int) (l : List α) (k : Int) :
    (sortKey key l).filter (fun a => decide (key a = k)) =
      l.filter (fun a => decide (key a = k)) := by
  induction l with
  | nil => simp [sortKey]
  | cons x xs ih =>
    rw [sortKey, insKey_filter]
    by_cases hx : key x = k
    · rw [if_pos hx, ih, List.filter_cons_of_pos (by simpa using hx)]
    · rw [if_neg hx, ih, List.filter_cons_of_neg (by simpa using hx)]

theorem dedupeFirstAux_sublist [DecidableEq α] (seen : List α) (l : List α) :
    List.Sublist (dedupeFirstAux seen l) l := by
  induction l generalizing seen with
  | nil => simp [dedupeFirstAux]
  | cons x xs ih =>
    by_cases h : x ∈ seen
    · simpa [dedupeFirstAux, h] using (ih seen).cons x
    · simpa [dedupeFirstAux, h] using (ih (x :: seen)).cons₂ x

theorem mem_dedupeFirstAux [DecidableEq α] (seen : List α) (l : List α) (a : α) :
    a ∈ dedupeFirstAux seen l ↔ a ∈ l ∧ a ∉ seen := by
  induction l generalizing seen with
  | nil => simp [dedupeFirstAux]
  | cons x xs ih =>
    by_cases h : x ∈ seen
    · rw [dedupeFirstAux, if_pos h, ih]
      constructor
      · rintro ⟨ha, hs⟩; exact ⟨List.mem_cons_of_mem x ha, hs⟩
      · rintro ⟨ha, hs⟩
        rcases List.mem_cons.mp ha with rfl | ha
        · exact absurd h hs
        · exact ⟨ha, hs⟩
    · rw [dedupeFirstAux, if_neg h]
      constructor
      · intro ha
        rcases List.mem_cons.mp ha with rfl | ha
        · exact ⟨List.mem_cons_self _ _, h⟩
        · rcases (ih (x :: seen)).mp ha with ⟨hxs, hns⟩
          refine ⟨List.mem_cons_of_mem x hxs, fun hc => hns (List.mem_cons_of_mem x hc)⟩
      · rintro ⟨ha, hs⟩
        rcases List.mem_cons.mp ha with rfl | ha
        · exact List.mem_cons_self _ _
        · by_cases hax : a = x
          · subst hax; exact List.mem_cons_self _ _
          · exact List.mem_cons_of_mem x
              ((ih (x :: seen)).mpr ⟨ha, by simp [hax, hs]⟩)

theorem dedupeFirstAux_nodup [DecidableEq α] (seen : List α) (l : List α) :
    (dedupeFirstAux seen l).Nodup := by
  induction l generalizing seen with
  | nil => simp [dedupeFirstAux]
  | cons x xs ih =>
    by_cases h : x ∈ seen
    · simpa [dedupeFirstAux, h] using ih seen
    · rw [dedupeFirstAux, if_neg h]
      refine List.nodup_cons.mpr ⟨?_, ih (x :: seen)⟩
      intro hc
      exact ((mem_dedupeFirstAux _ _ _).mp hc).2 (List.mem_cons_self _ _)

theorem strIndexOf_cons_self (x : Str) (xs : List Str) : (x :: xs).indexOf x = 0 := by
  simp [List.indexOf, List.findIdx_cons]

theorem strIndexOf_cons_ne (x a : Str) (xs : List Str) (h : a ≠ x) :
    (x :: xs).indexOf a = xs.indexOf a + 1 := by
  have hb : (x == a) = false := beq_false_of_ne (Ne.symm h)
  simp [List.indexOf, List.findIdx_cons, hb]

theorem dedupeFirstAux_pairwise_indexOf (seen : List Str) (l : List Str) :
    (dedupeFirstAux seen l).Pairwise (fun a b => l.indexOf a < l.indexOf b) := by
  induction l generalizing seen with
  | nil => simp [dedupeFirstAux]
  | cons x xs ih =>
    have hne : ∀ (s : List Str) (b : Str), x ∈ s → b ∈ dedupeFirstAux s xs → b ≠ x := by
      intro s b hx hb hbx
      subst hbx
      exact ((mem_dedupeFirstAux s xs b).mp hb).2 hx
    by_cases h : x ∈ seen
    · rw [dedupeFirstAux, if_pos h]
      refine ((ih seen).imp_of_mem ?_)
      intro a b ha hb hab
      have hax : a ≠ x := hne seen a h ha
      have hbx : b ≠ x := hne seen b h hb
      rw [strIndexOf_cons_ne x a xs hax, strIndexOf_cons_ne x b xs hbx]
      omega
    · rw [dedupeFirstAux, if_neg h]
      refine List.pairwise_cons.mpr ⟨?_, ?_⟩
      · intro b hb
        have hbx : b ≠ x := hne (x :: seen) b (List.mem_cons_self _ _) hb
        rw [strIndexOf_cons_self x xs, strIndexOf_cons_ne x b xs hbx]
        omega
      · refine ((ih (x :: seen)).imp_of_mem ?_)
        intro a b ha hb hab
        have hax : a ≠ x := hne (x :: seen) a (List.mem_cons_self _ _) ha
        have hbx : b ≠ x := hne (x :: seen) b (List.mem_cons_self _ _) hb
        rw [strIndexOf_cons_ne x a xs hax, strIndexOf_cons_ne x b xs hbx]
        omega

theorem lexLt_irrefl (a : Str) : lexLt a a = false := by
  induction a with
  | nil => rfl
  | cons c cs ih => simp [lexLt, ih]

theorem lexLt_asymm : ∀ a b : Str, lexLt a b = true → lexLt b a = false
  | [], [], h => by simp [lexLt] at h
  | [], _ :: _, _ => rfl
  | _ :: _, [], h => by simp [lexLt] at h
  | a :: as, b :: bs, h => by
    by_cases hab : a.toNat < b.toNat
    · simp [lexLt, hab, (show ¬ b.toNat < a.toNat by omega)]
    · by_cases hba : b.toNat < a.toNat
      · simp [lexLt, hab, hba] at h
      · have h' : lexLt as bs = true := by simpa [lexLt, hab, hba] using h
        simp [lexLt, hab, hba, lexLt_asymm as bs h']

theorem lexLe_trans : ∀ a b c : Str, lexLt b a = false → lexLt c b = false →
    lexLt c a = false
  | [], _, c, _, _ => by cases c <;> rfl
  | _ :: _, [], _, h1, _ => by simp [lexLt] at h1
  | _ :: _, _ :: _, [], _, h2 => by simp [lexLt] at h2
  | a :: as, b :: bs, c :: cs, h1, h2 => by
    have hba : ¬ b.toNat < a.toNat := by
      intro h; simp [lexLt, h] at h1
    have hcb : ¬ c.toNat < b.toNat := by
      intro h; simp [lexLt, h] at h2
    have hca : ¬ c.toNat < a.toNat := by omega
    by_cases hac : a.toNat < c.toNat
    · simp [lexLt, hca, hac]
    · have hab : ¬ a.toNat < b.toNat := by omega
      have hbc : ¬ b.toNat < c.toNat := by omega
      have h1' : lexLt bs as = false := by simpa [lexLt, hba, hab] using h1
      have h2' : lexLt cs bs = false := by simpa [lexLt, hcb, hbc] using h2
      simp [lexLt, hca, hac, lexLe_trans as bs cs h1' h2']

theorem mem_insLex (x a : Str) (l : List Str) :
    a ∈ insLex x l ↔ a = x ∨ a ∈ l := by
  induction l with
  | nil => simp [insLex]
  | cons y ys ih =>
    by_cases h : lexLt y x <;> simp [insLex, h, ih] <;> tauto

theorem insLex_perm (x : Str) (l : List Str) : List.Perm (insLex x l) (x :: l) := by
  induction l with
  | nil => simp [insLex]
  | cons y ys ih =>
    by_cases h : lexLt y x
    · simpa [insLex, h] using ((ih.cons y).trans (List.Perm.swap x y ys))
    · simp [insLex, h]

theorem sortLex_perm (l : List Str) : List.Perm (sortLex l) l := by
  induction l with
  | nil => simp [sortLex]
  | cons x xs ih => exact (insLex_perm x (sortLex xs)).trans (ih.cons x)

theorem pairwise_insLex (x : Str) (l : List Str)
    (h : l.Pairwise (fun a b => lexLt b a = false)) :
    (insLex x l).Pairwise (fun a b => lexLt b a = false) := by
  induction l with
  | nil => simp [insLex]
  | cons y ys ih =>
    rcases List.pairwise_cons.mp h with ⟨hy, hys⟩
    by_cases hc : lexLt y x
    · rw [insLex, if_pos hc]
      refine List.pairwise_cons.mpr ⟨?_, ih hys⟩
      intro a ha
      rcases (mem_insLex x a ys).mp ha with rfl | ha
      · exact lexLt_asymm y a hc
      · exact hy a ha
    · rw [insLex, if_neg hc]
      refine List.pairwise_cons.mpr ⟨?_, h⟩
      intro a ha
      rcases List.mem_cons.mp ha with rfl | ha
      · exact Bool.eq_false_iff.mpr (fun hc' => hc (by simpa using hc'))
      · exact lexLe_trans x y a (Bool.eq_false_iff.mpr
          (fun hc' => hc (by simpa using hc'))) (hy a ha)

theorem sortLex_sorted (l : List Str) :
    (sortLex l).Pairwise (fun a b => lexLt b a = false) := by
  induction l with
  | nil => simp [sortLex]
  | cons x xs ih => exact pairwise_insLex x _ ih

theorem takeWhile_eq_self_of_all (p : Char → Bool) (l : Str)
    (h : ∀ c ∈ l, p c = true) : l.takeWhile p = l ∧ l.dropWhile p = [] := by
  induction l with
  | nil => simp
  | cons c cs ih =>
    have hc : p c = true := h c (List.mem_cons_self _ _)
    have := ih (fun a ha => h a (List.mem_cons_of_mem c ha))
    simp [List.takeWhile_cons, List.dropWhile_cons, hc, this.1, this.2]

theorem takeWhile_append_stop (p : Char → Bool) (l : Str) (a : Char) (r : Str)
    (hl : ∀ c ∈ l, p c = true) (ha : p a = false) :
    (l ++ a :: r).takeWhile p = l ∧ (l ++ a :: r).dropWhile p = a :: r := by
  induction l with
  | nil => simp [List.takeWhile_cons, List.dropWhile_cons, ha]
  | cons c cs ih =>
    have hc : p c = true := hl c (List.mem_cons_self _ _)
    have := ih (fun x hx => hl x (List.mem_cons_of_mem c hx))
    simp [List.takeWhile_cons, List.dropWhile_cons, hc, this.1, this.2]

theorem digitsThen_sound (ds r : Str) (hne : ds ≠ [])
    (hdig : ∀ c ∈ ds, isDigitCh c = true) :
    digitsThen (ds ++ '_' :: r) = some r := by
  have h := takeWhile_append_stop isDigitCh ds '_' r hdig (by decide)
  simp [digitsThen, h.1, h.2, hne]

theorem digitsThen_complete (t r : Str) (h : digitsThen t = some r) :
    ∃ ds, ds ≠ [] ∧ (∀ c ∈ ds, isDigitCh c = true) ∧ t = ds ++ '_' :: r := by
  unfold digitsThen at h
  simp only at h
  by_cases hne : (t.takeWhile isDigitCh).isEmpty
  · simp [hne] at h
  · rw [if_neg hne] at h
    refine ⟨t.takeWhile isDigitCh, by simpa using hne,
      fun c hc => List.mem_takeWhile_imp hc, ?_⟩
    rcases hdw : t.dropWhile isDigitCh with _ | ⟨c, rest⟩
    · rw [hdw] at h; exact absurd h (by simp)
    · rw [hdw] at h
      by_cases hc : c = '_'
      · subst hc
        simp only [Option.some.injEq] at h
        subst h
        conv_lhs => rw [← List.takeWhile_append_dropWhile isDigitCh t]
        rw [hdw]
      · exact absurd h (by simp [hc])

theorem restOk_sound (r nl : Str) (hne : r ≠ []) (hr : ∀ c ∈ r, c ≠ '\n')
    (hnl : nl = [] ∨ nl = ['\n']) : restOk (r ++ nl) = some r := by
  have hr2 : ∀ c ∈ r, nonNl c = true := fun c hc => by
    simpa [nonNl] using hr c hc
  have hE : ¬ (r.isEmpty = true) := by simpa [List.isEmpty_iff] using hne
  rcases hnl with rfl | rfl
  · have h := takeWhile_eq_self_of_all nonNl r hr2
    unfold restOk
    rw [List.append_nil, h.1, h.2, if_neg hE]
  · have h := takeWhile_append_stop nonNl r '\n' [] hr2 (by decide)
    unfold restOk
    rw [h.1, h.2, if_neg hE]
    rfl

theorem restOk_complete (t r : Str) (h : restOk t = some r) :
    r ≠ [] ∧ (∀ c ∈ r, c ≠ '\n') ∧ (t = r ∨ t = r ++ ['\n']) := by
  unfold restOk at h
  by_cases hne : (t.takeWhile nonNl).isEmpty
  · rw [if_pos hne] at h; exact absurd h (by simp)
  · rw [if_neg hne] at h
    have hsplit := List.takeWhile_append_dropWhile nonNl t
    have hmem : ∀ c ∈ t.takeWhile nonNl, c ≠ '\n' := fun c hc => by
      have := List.mem_takeWhile_imp hc
      simpa [nonNl] using this
    rcases hdw : t.dropWhile nonNl with _ | ⟨c, rest⟩
    · rw [hdw] at h
      simp only [Option.some.injEq] at h
      subst h
      exact ⟨by simpa [List.isEmpty_iff] using hne, hmem,
        Or.inl (by rw [hdw, List.append_nil] at hsplit; exact hsplit.symm)⟩
    · rw [hdw] at h
      rcases rest with _ | ⟨d, rest2⟩
      · by_cases hc : c = '\n'
        · subst hc
          simp only [Option.some.injEq] at h
          subst h
          exact ⟨by simpa [List.isEmpty_iff] using hne, hmem,
            Or.inr (by rw [hdw] at hsplit; exact hsplit.symm)⟩
        · exact absurd h (by simp [hc])
      · exact absurd h (by simp)

theorem splitFigDigits_eq (t : Str) :
    splitFigDigits ('f' :: 'i' :: 'g' :: '_' :: t) =
      (match t with
       | 's' :: u => if headIsDigit u then digitsThen u else digitsThen t
       | _ => digitsThen t) := rfl

theorem isDigitCh_ne_s (d : Char) (h : isDigitCh d = true) : d ≠ 's' := by
  intro hd
  subst hd
  simp [isDigitCh] at h

theorem splitFigDigits_cons_ne_s (d : Char) (hd : d ≠ 's') (x : Str) :
    splitFigDigits ('f' :: 'i' :: 'g' :: '_' :: d :: x) = digitsThen (d :: x) := by
  rw [splitFigDigits_eq]
  split
  · rename_i u heq
    exfalso
    apply hd
    injection heq with h1 h2
  · rfl

theorem splitFigDigits_sound (s : Bool) (ds x : Str) (hne : ds ≠ [])
    (hdig : ∀ c ∈ ds, isDigitCh c = true) :
    splitFigDigits (figTok s ds ++ x) = some x := by
  rcases ds with _ | ⟨d, ds2⟩
  · exact absurd rfl hne
  have hd : isDigitCh d = true := hdig d (List.mem_cons_self _ _)
  cases s
  · have : figTok false (d :: ds2) ++ x =
        'f' :: 'i' :: 'g' :: '_' :: d :: (ds2 ++ '_' :: x) := by
      simp [figTok]
    rw [this, splitFigDigits_cons_ne_s d (isDigitCh_ne_s d hd)]
    exact digitsThen_sound (d :: ds2) x (by simp) hdig
  · have : figTok true (d :: ds2) ++ x =
        'f' :: 'i' :: 'g' :: '_' :: 's' :: (d :: ds2 ++ '_' :: x) := by
      simp [figTok]
    rw [this, splitFigDigits_eq]
    have hh : headIsDigit (d :: ds2 ++ '_' :: x) = true := by simpa [headIsDigit] using hd
    simp only [hh, if_true]
    exact digitsThen_sound (d :: ds2) x (by simp) hdig

theorem splitFigDigits_complete (f r : Str) (h : splitFigDigits f = some r) :
    ∃ s ds, ds ≠ [] ∧ (∀ c ∈ ds, isDigitCh c = true) ∧ f = figTok s ds ++ r := by
  unfold splitFigDigits at h
  split at h
  · rename_i t
    split at h
    · rename_i u
      by_cases hd : headIsDigit u
      · rw [if_pos hd] at h
        obtain ⟨ds, hne, hdig, hu⟩ := digitsThen_complete u r h
        refine ⟨true, ds, hne, hdig, ?_⟩
        subst hu
        simp [figTok]
      · rw [if_neg hd] at h
        have : digitsThen ('s' :: u) = none := by
          simp [digitsThen, List.takeWhile_cons, isDigitCh]
        rw [this] at h
        exact absurd h (by simp)
    · obtain ⟨ds, hne, hdig, ht⟩ := digitsThen_complete _ r h
      refine ⟨false, ds, hne, hdig, ?_⟩
      subst ht
      simp [figTok]
  · exact absurd h (by simp)

theorem prefixRest_sound (s : Bool) (ds r nl : Str) (hds : ds ≠ [])
    (hdig : ∀ c ∈ ds, isDigitCh c = true) (hr : r ≠ [])
    (hrn : ∀ c ∈ r, c ≠ '\n') (hnl : nl = [] ∨ nl = ['\n']) :
    prefixRest (figTok s ds ++ (r ++ nl)) = some r := by
  unfold prefixRest
  rw [splitFigDigits_sound s ds (r ++ nl) hds hdig]
  exact restOk_sound r nl hr hrn hnl

theorem prefixRest_complete (f r : Str) (h : prefixRest f = some r) :
    ∃ s ds nl, ds ≠ [] ∧ (∀ c ∈ ds, isDigitCh c = true) ∧ r ≠ [] ∧
      (∀ c ∈ r, c ≠ '\n') ∧ (nl = [] ∨ nl = ['\n']) ∧
      f = figTok s ds ++ (r ++ nl) := by
  unfold prefixRest at h
  rcases hsp : splitFigDigits f with _ | x
  · rw [hsp] at h
    exact absurd h (by simp)
  · rw [hsp] at h
    simp only [Option.some_bind] at h
    obtain ⟨s, ds, hne, hdig, hf⟩ := splitFigDigits_complete f x hsp
    obtain ⟨hrne, hrn, hx⟩ := restOk_complete x r h
    rcases hx with rfl | rfl
    · exact ⟨s, ds, [], hne, hdig, hrne, hrn, Or.inl rfl, by simpa using hf⟩
    · exact ⟨s, ds, ['\n'], hne, hdig, hrne, hrn, Or.inr rfl, hf⟩

theorem natDigitsAux_ne_nil (n fuel : Nat) : natDigitsAux n (fuel + 1) ≠ [] := by
  rw [natDigitsAux]
  by_cases h : n < 10 <;> simp [h]

theorem natDigits_ne_nil (n : Nat) : natDigits n ≠ [] := natDigitsAux_ne_nil n n

theorem isDigitCh_ofNat_mod (n : Nat) : isDigitCh (Char.ofNat (48 + n % 10)) = true := by
  have h10 : n % 10 < 10 := Nat.mod_lt _ (by omega)
  set m := n % 10 with hm
  interval_cases m <;> decide

theorem natDigitsAux_digits (n fuel : Nat) :
    ∀ c ∈ natDigitsAux n fuel, isDigitCh c = true := by
  induction fuel generalizing n with
  | zero => simp [natDigitsAux]
  | succ fuel ih =>
    rw [natDigitsAux]
    by_cases h : n < 10
    · rw [if_pos h]
      intro c hc
      rw [List.mem_singleton] at hc
      subst hc
      exact isDigitCh_ofNat_mod n
    · rw [if_neg h]
      intro c hc
      rcases List.mem_append.mp hc with hc | hc
      · exact ih (n / 10) c hc
      · rw [List.mem_singleton] at hc
        subst hc
        exact isDigitCh_ofNat_mod n

theorem natDigits_digits (n : Nat) : ∀ c ∈ natDigits n, isDigitCh c = true :=
  natDigitsAux_digits n (n + 1)

/-! ### Claim C3 — image comparison set algebra -/

/-- C3: for every pair of input texts (and extension list), the
`ComparisonResult` of `compare_tex_files` satisfies `added = new − old`,
`removed = old − new`, `common = old ∩ new`, and consequently
`added ∩ removed = ∅`, `common ∪ added = new`, `common ∪ removed = old`. -/
theorem C3_compare_set_algebra (oldText newText : Str) (exts : List Str) :
    (compare_tex_files oldText newText exts).added_images =
        (compare_tex_files oldText newText exts).new_images \
          (compare_tex_files oldText newText exts).old_images ∧
      (compare_tex_files oldText newText exts).removed_images =
        (compare_tex_files oldText newText exts).old_images \
          (compare_tex_files oldText newText exts).new_images ∧
      (compare_tex_files oldText newText exts).common_images =
        (compare_tex_files oldText newText exts).old_images ∩
          (compare_tex_files oldText newText exts).new_images ∧
      (compare_tex_files oldText newText exts).added_images ∩
          (compare_tex_files oldText newText exts).removed_images = ∅ ∧
      (compare_tex_files oldText newText exts).common_images ∪
          (compare_tex_files oldText newText exts).added_images =
        (compare_tex_files oldText newText exts).new_images ∧
      (compare_tex_files oldText newText exts).common_images ∪
          (compare_tex_files oldText newText exts).removed_images =
        (compare_tex_files oldText newText exts).old_images := by
  refine ⟨rfl, rfl, rfl, ?_, ?_, ?_⟩ <;>
    · ext a
      simp only [compare_tex_files, Finset.mem_inter, Finset.mem_sdiff,
        Finset.mem_union, Finset.not_mem_empty]
      tauto

/-! ### Claim C9 — capitalized citation commands are double-counted -/

/-- C9: a document consisting of a single `\Citep{k}` matches both the
`\citep` and the `\Citep` pattern under `re.IGNORECASE`, so the key is
appended to `cited_keys` twice, while `unique_cited_keys` keeps it once. -/
theorem C9_capitalized_double_count :
    cited_keys (strL "\\Citep\x7bk\x7d") = [['k'], ['k']] ∧
      unique_cited_keys (strL "\\Citep\x7bk\x7d") = [['k']] := by
  constructor <;> rfl

/-! ### Claim C8 — duplicate bibliography keys: last write wins -/

theorem alookup_dictUpd_self (d : List (Str × Str)) (k v : Str) :
    alookup (dictUpd d k v) k = some v := by
  induction d with
  | nil => simp [dictUpd, alookup]
  | cons e t ih =>
    by_cases h : e.1 = k
    · simp [dictUpd, h, alookup]
    · simp [dictUpd, h, alookup, ih]

theorem alookup_dictUpd_other (d : List (Str × Str)) (k v k2 : Str) (h : k2 ≠ k) :
    alookup (dictUpd d k v) k2 = alookup d k2 := by
  induction d with
  | nil => simp [dictUpd, alookup, Ne.symm h]
  | cons e t ih =>
    by_cases he : e.1 = k
    · subst he
      simp [dictUpd, alookup, Ne.symm h]
    · simp only [dictUpd, if_neg he]
      by_cases he2 : e.1 = k2 <;> simp [alookup, he2, ih]

theorem mem_keys_dictUpd (d : List (Str × Str)) (k v a : Str)
    (h : a ∈ (dictUpd d k v).map (fun e => e.1)) :
    a = k ∨ a ∈ d.map (fun e => e.1) := by
  induction d with
  | nil => simpa [dictUpd] using h
  | cons e t ih =>
    by_cases he : e.1 = k
    · rcases (by simpa [dictUpd, he] using h : a = k ∨ a ∈ t.map (fun e => e.1)) with h1 | h1
      · exact Or.inl h1
      · exact Or.inr (by simp [h1])
    · rcases (by simpa [dictUpd, he] using h :
          a = e.1 ∨ a ∈ (dictUpd t k v).map (fun e => e.1)) with h1 | h1
      · exact Or.inr (by simp [h1])
      · rcases ih h1 with h2 | h2
        · exact Or.inl h2
        · exact Or.inr (by simp [h2])

theorem nodup_keys_dictUpd (d : List (Str × Str)) (k v : Str)
    (h : (d.map (fun e => e.1)).Nodup) :
    ((dictUpd d k v).map (fun e => e.1)).Nodup := by
  induction d with
  | nil => simp [dictUpd]
  | cons e t ih =>
    rw [List.map_cons] at h
    rcases List.nodup_cons.mp h with ⟨he, ht⟩
    by_cases heq : e.1 = k
    · subst heq
      rw [dictUpd, if_pos rfl, List.map_cons]
      exact List.nodup_cons.mpr ⟨he, ht⟩
    · rw [dictUpd, if_neg heq, List.map_cons]
      refine List.nodup_cons.mpr ⟨?_, ih ht⟩
      intro hc
      rcases mem_keys_dictUpd t k v e.1 hc with h1 | h1
      · exact heq h1
      · exact he h1

theorem parse_fold_last (ms : List (Str × Str)) (d0 : List (Str × Str)) (k : Str) :
    alookup (ms.foldl bibStep d0) k =
      match (bibWrites k ms).getLast? with
      | some v => some v
      | none => alookup d0 k := by
  induction ms generalizing d0 with
  | nil => simp [bibWrites]
  | cons m ms ih =>
    rw [List.foldl_cons, ih]
    by_cases he : (stripWs m.2).isEmpty
    · have he2 : stripWs m.2 = [] := List.isEmpty_iff.mp he
      have hw : bibWrites k (m :: ms) = bibWrites k ms := by
        simp [bibWrites, List.filterMap_cons, he2]
      have hs : bibStep d0 m = d0 := by simp [bibStep, he]
      rw [hw, hs]
    · by_cases hk : stripWs m.2 = k
      · have hkne : ¬ (k = []) := by
          rw [← hk]
          simpa [List.isEmpty_iff] using he
        have hw : bibWrites k (m :: ms) = stripWs m.1 :: bibWrites k ms := by
          simp [bibWrites, List.filterMap_cons, hk, hkne]
        have hs : bibStep d0 m = dictUpd d0 k (stripWs m.1) := by
          rw [bibStep, if_neg he, hk]
        rw [hw, hs]
        rcases hBW : bibWrites k ms with _ | ⟨w, ws⟩
        · simp only [List.getLast?_nil, List.getLast?_singleton]
          exact alookup_dictUpd_self d0 k (stripWs m.1)
        · rw [List.getLast?_cons_cons]
          rcases hX : (w :: ws).getLast? with _ | L
          · exact absurd hX (by simp)
          · rfl
      · have hw : bibWrites k (m :: ms) = bibWrites k ms := by
          simp [bibWrites, List.filterMap_cons, hk]
        have hs : bibStep d0 m = dictUpd d0 (stripWs m.2) (stripWs m.1) := by
          rw [bibStep, if_neg he]
        rw [hw, hs]
        rcases hL : (bibWrites k ms).getLast? with _ | v
        · exact alookup_dictUpd_other d0 (stripWs m.2) (stripWs m.1) k (Ne.symm hk)
        · rfl

theorem nodup_keys_fold (ms : List (Str × Str)) (d0 : List (Str × Str))
    (h : (d0.map (fun e => e.1)).Nodup) :
    ((ms.foldl bibStep d0).map (fun e => e.1)).Nodup := by
  induction ms generalizing d0 with
  | nil => simpa using h
  | cons m ms ih =>
    rw [List.foldl_cons]
    refine ih _ ?_
    by_cases he : (stripWs m.2).isEmpty
    · simpa [bibStep, he] using h
    · rw [bibStep, if_neg he]
      exact nodup_keys_dictUpd d0 _ _ h

/-- C8: `parse_bib_entries` resolves duplicate keys last-write-wins — for
every bibliography text, the entry table maps each key to the stripped text
of the textually last matching entry, its keys are free of duplicates, and
on a bibliography defining `k1` twice the second entry wins. -/
theorem C8_duplicate_keys_last_write_wins :
    (∀ text k, alookup (parse_bib_entries text) k =
      match (bibWrites k (entryMatches text)).getLast? with
      | some v => some v
      | none => none) ∧
      (∀ text, ((parse_bib_entries text).map (fun e => e.1)).Nodup) ∧
      parse_bib_entries (strL "@article\x7bk1,\n a\n@article\x7bk1,\n b") =
        [(strL "k1", strL "@article\x7bk1,\n b")] := by
  refine ⟨?_, ?_, by rfl⟩
  · intro text k
    have h := parse_fold_last (entryMatches text) [] k
    rw [show parse_bib_entries text = (entryMatches text).foldl bibStep [] from rfl, h]
    rcases (bibWrites k (entryMatches text)).getLast? with _ | v <;> rfl
  · intro text
    exact nodup_keys_fold (entryMatches text) [] (by simp)

/-! ### Claim C4 — citation reconciliation ordering -/

/-- C4: `analyze_citations` returns the missing keys as the subsequence of
the unique cited keys absent from the bibliography (citation-appearance
order), and the unused keys as the never-cited bibliography keys sorted
alphabetically (with no duplicates when the bibliography key set has none);
on bibliography keys `{a,b}` and cited keys `[a,c]` it gives
`missing = ["c"]` and `unused = ["b"]`. -/
theorem C4_citation_reconciliation (bibKeys uniqueCited : List Str) :
    List.Sublist (analyze_citations bibKeys uniqueCited).1 uniqueCited ∧
      (∀ k, k ∈ (analyze_citations bibKeys uniqueCited).1 ↔
        (k ∈ uniqueCited ∧ k ∉ bibKeys)) ∧
      (analyze_citations bibKeys uniqueCited).2.Pairwise
        (fun a b => lexLt b a = false) ∧
      (∀ k, k ∈ (analyze_citations bibKeys uniqueCited).2 ↔
        (k ∈ bibKeys ∧ k ∉ uniqueCited)) ∧
      (bibKeys.Nodup → (analyze_citations bibKeys uniqueCited).2.Nodup) ∧
      analyze_citations [strL "a", strL "b"] [strL "a", strL "c"] =
        ([strL "c"], [strL "b"]) := by
  refine ⟨List.filter_sublist _, ?_, sortLex_sorted _, ?_, ?_, by rfl⟩
  · intro k
    simp [analyze_citations, List.mem_filter]
  · intro k
    rw [show (analyze_citations bibKeys uniqueCited).2 =
      sortLex (bibKeys.filter (fun k => decide (k ∉ uniqueCited))) from rfl,
      (sortLex_perm _).mem_iff]
    simp [List.mem_filter]
  · intro h
    exact ((sortLex_perm _).nodup_iff).mpr (h.filter _)

/-- C4 witness: the theorem applied at bibliography keys `[a,b]`, cited keys
`[a,c]`, discharging the no-duplicates hypothesis there. -/
theorem C4_witness :
    (analyze_citations [strL "a", strL "b"] [strL "a", strL "c"]).2.Nodup ∧
      (strL "c" ∈ (analyze_citations [strL "a", strL "b"] [strL "a", strL "c"]).1 ↔
        (strL "c" ∈ [strL "a", strL "c"] ∧ strL "c" ∉ [strL "a", strL "b"])) := by
  have h := C4_citation_reconciliation [strL "a", strL "b"] [strL "a", strL "c"]
  exact ⟨h.2.2.2.2.1 (by decide), h.2.1 (strL "c")⟩

/-! ### Claim C2 — citation extraction ordering and deduplication -/

/-- C2: for every document text the extracted citation pairs are stably
sorted by offset (sorted, a permutation, and offset-classes preserved in
discovery order), `cited_keys` is their key projection, and
`unique_cited_keys` is the subsequence keeping the first occurrence of each
key (no duplicates, same members, ordered by first-occurrence index); on
`"\cite{b} text \citep{a,c}"` the unique ordered keys are `["b","a","c"]`,
and the orderer on offsets `[(5,a),(1,b),(5,a),(9,c)]` gives `["b","a","c"]`. -/
theorem C2_citation_order_dedup (text : Str) :
    cited_keys text =
        (sortKey (fun p => (p.1 : Int)) (citationPairs text)).map (fun p => p.2) ∧
      (sortKey (fun p => (p.1 : Int)) (citationPairs text)).Pairwise
        (fun a b => a.1 ≤ b.1) ∧
      List.Perm (sortKey (fun p => (p.1 : Int)) (citationPairs text))
        (citationPairs text) ∧
      (∀ k : Nat, (sortKey (fun p => (p.1 : Int)) (citationPairs text)).filter
          (fun p => decide (p.1 = k)) =
        (citationPairs text).filter (fun p => decide (p.1 = k))) ∧
      (unique_cited_keys text).Nodup ∧
      List.Sublist (unique_cited_keys text) (cited_keys text) ∧
      (∀ k, k ∈ unique_cited_keys text ↔ k ∈ cited_keys text) ∧
      (unique_cited_keys text).Pairwise
        (fun a b => (cited_keys text).indexOf a < (cited_keys text).indexOf b) ∧
      unique_cited_keys (strL "\\cite\x7bb\x7d text \\citep\x7ba,c\x7d") =
        [strL "b", strL "a", strL "c"] ∧
      dedupeFirst ((sortKey (fun p => (p.1 : Int))
          [(5, strL "a"), (1, strL "b"), (5, strL "a"), (9, strL "c")]).map
            (fun p => p.2)) = [strL "b", strL "a", strL "c"] := by
  refine ⟨rfl, ?_, sortKey_perm _ _, ?_, dedupeFirstAux_nodup [] _,
    dedupeFirstAux_sublist [] _, ?_, dedupeFirstAux_pairwise_indexOf [] _,
    by rfl, by rfl⟩
  · exact (sortKey_sorted _ _).imp (by intro a b h; exact_mod_cast h)
  · intro k
    have h := sortKey_filter (fun p : Nat × Str => (p.1 : Int)) (citationPairs text)
      (k : Int)
    have e1 : ∀ p ∈ sortKey (fun p : Nat × Str => (p.1 : Int)) (citationPairs text),
        (decide (p.1 = k)) = (decide ((p.1 : Int) = (k : Int))) := by
      intro p _
      rw [decide_eq_decide]
      exact Iff.symm Nat.cast_inj
    have e2 : ∀ p ∈ citationPairs text,
        (decide ((p.1 : Int) = (k : Int))) = (decide (p.1 = k)) := by
      intro p _
      rw [decide_eq_decide]
      exact Nat.cast_inj
    rw [List.filter_congr e1, h, List.filter_congr e2]
  · intro k
    have h := mem_dedupeFirstAux ([] : List Str) (cited_keys text) k
    simpa [unique_cited_keys, dedupeFirst] using h

/-- C2 witness: the characterization applied at the concrete document
`"\cite{b} text \citep{a,c}"`. -/
theorem C2_witness :
    (strL "a" ∈ unique_cited_keys (strL "\\cite\x7bb\x7d text \\citep\x7ba,c\x7d") ↔
        strL "a" ∈ cited_keys (strL "\\cite\x7bb\x7d text \\citep\x7ba,c\x7d")) ∧
      (unique_cited_keys (strL "\\cite\x7bb\x7d text \\citep\x7ba,c\x7d")).Nodup :=
  ⟨(C2_citation_order_dedup (strL "\\cite\x7bb\x7d text \\citep\x7ba,c\x7d")).2.2.2.2.2.2.1
      (strL "a"),
    (C2_citation_order_dedup (strL "\\cite\x7bb\x7d text \\citep\x7ba,c\x7d")).2.2.2.2.1⟩

/-! ### Claim C5 — replacement application -/

theorem findSub_first (pat : Str) (s : Str) (i : Nat) (h : findSub pat s = some i) :
    pat.isPrefixOf (s.drop i) = true ∧
      ∀ j, j < i → pat.isPrefixOf (s.drop j) = false := by
  induction s generalizing i with
  | nil =>
    rw [findSub] at h
    by_cases hp : pat.isPrefixOf ([] : Str)
    · rw [if_pos hp] at h
      simp only [Option.some.injEq] at h
      subst h
      exact ⟨hp, fun j hj => absurd hj (by omega)⟩
    · rw [if_neg hp] at h
      exact absurd h (by simp)
  | cons c t ih =>
    rw [findSub] at h
    by_cases hp : pat.isPrefixOf (c :: t)
    · rw [if_pos hp] at h
      simp only [Option.some.injEq] at h
      subst h
      exact ⟨hp, fun j hj => absurd hj (by omega)⟩
    · rw [if_neg hp] at h
      rcases hf : findSub pat t with _ | i2
      · rw [hf] at h
        exact absurd h (by simp)
      · rw [hf] at h
        simp only [Option.map_some', Option.some.injEq] at h
        subst h
        obtain ⟨h1, h2⟩ := ih i2 hf
        refine ⟨by simpa [List.drop_succ_cons] using h1, ?_⟩
        intro j hj
        cases j with
        | zero => exact Bool.eq_false_iff.mpr hp
        | succ j2 =>
          rw [List.drop_succ_cons]
          exact h2 j2 (by omega)

/-- C5: `save_modified_tex` folds the replacement steps over the
modifications sorted stably by first-occurrence offset in the original text,
descending (sorted, a permutation, offset-classes preserved); a step on a
target that occurs replaces exactly its first occurrence (the text
decomposes at the least matching offset), and a missing target only appends
a warning and leaves the text unchanged. -/
theorem C5_replacement_application (text : Str) (mods : List (Str × Str)) :
    save_modified_tex text mods = (sortedMods text mods).foldl applyModStep (text, []) ∧
      List.Perm (sortedMods text mods) mods ∧
      (sortedMods text mods).Pairwise (fun a b => pyFind text b.1 ≤ pyFind text a.1) ∧
      (∀ k : Int, (sortedMods text mods).filter
          (fun p => decide (pyFind text p.1 = k)) =
        mods.filter (fun p => decide (pyFind text p.1 = k))) ∧
      (∀ s w old new i, findSub old s = some i →
        applyModStep (s, w) (old, new) =
          (s.take i ++ new ++ s.drop (i + old.length), w)) ∧
      (∀ s old i, findSub old s = some i →
        old.isPrefixOf (s.drop i) = true ∧
          ∀ j, j < i → old.isPrefixOf (s.drop j) = false) ∧
      (∀ s w old new, findSub old s = none →
        applyModStep (s, w) (old, new) = (s, w ++ [old])) := by
  refine ⟨rfl, sortKey_perm _ _, ?_, ?_, ?_,
    fun s old i h => findSub_first old s i h, ?_⟩
  · exact (sortKey_sorted _ _).imp (by intro a b h; omega)
  · intro k
    show (sortKey (fun p : Str × Str => - pyFind text p.1) mods).filter
        (fun p => decide (pyFind text p.1 = k)) =
      mods.filter (fun p => decide (pyFind text p.1 = k))
    have h := sortKey_filter (fun p : Str × Str => - pyFind text p.1) mods (-k)
    have e1 : ∀ p ∈ sortKey (fun p : Str × Str => - pyFind text p.1) mods,
        (decide (pyFind text p.1 = k)) = (decide (- pyFind text p.1 = -k)) := by
      intro p _
      rw [decide_eq_decide]
      omega
    have e2 : ∀ p ∈ mods,
        (decide (- pyFind text p.1 = -k)) = (decide (pyFind text p.1 = k)) := by
      intro p _
      rw [decide_eq_decide]
      omega
    rw [List.filter_congr e1, h, List.filter_congr e2]
  · intro s w old new i h
    have ho : occursIn s old = true := by simp [occursIn, h]
    simp [applyModStep, ho, replaceFirst, h]
  · intro s w old new h
    have ho : occursIn s old = false := by simp [occursIn, h]
    simp [applyModStep, ho]

/-- C5 witness: a step at a present target rewrites its first occurrence
once; a step at a missing target warns and continues. -/
theorem C5_witness :
    applyModStep (strL "abcabc", []) (strL "b", strL "XY") = (strL "aXYcabc", []) ∧
      applyModStep (strL "abc", []) (strL "zz", strL "q") = (strL "abc", [strL "zz"]) := by
  have h := C5_replacement_application (strL "abcabc") []
  constructor
  · exact (h.2.2.2.2.1 (strL "abcabc") [] (strL "b") (strL "XY") 1 (by rfl)).trans
      (by rfl)
  · exact (h.2.2.2.2.2.2 (strL "abc") [] (strL "zz") (strL "q") (by rfl)).trans
      (by rfl)

/-! ### Claim C7 — copy-skip reporting, no overwrites -/

theorem alookup_append_left (d l : List (Str × β)) (k : Str) (v : β)
    (h : alookup d k = some v) : alookup (d ++ l) k = some v := by
  induction d with
  | nil => exact absurd h (by simp [alookup])
  | cons e t ih =>
    by_cases he : e.1 = k
    · simpa [alookup, he] using h
    · rw [List.cons_append, alookup, if_neg he]
      exact ih (by simpa [alookup, he] using h)

theorem copy_images_step_keeps (src : List (Str × β)) (st : CopyImagesState β)
    (image k : Str) (v : β) (h : alookup st.dst k = some v) :
    alookup (copy_images_step src st image).dst k = some v := by
  cases hs : alookup src image with
  | none => simpa [copy_images_step, hs] using h
  | some c =>
    cases hd : alookup st.dst image with
    | some d2 => simpa [copy_images_step, hs, hd] using h
    | none =>
      rw [copy_images_step, hs, hd]
      exact alookup_append_left _ _ _ _ h

theorem copy_images_fold_keeps (imgs : List Str) (src : List (Str × β))
    (st : CopyImagesState β) (k : Str) (v : β) (h : alookup st.dst k = some v) :
    alookup (imgs.foldl (copy_images_step src) st).dst k = some v := by
  induction imgs generalizing st with
  | nil => simpa using h
  | cons i t ih =>
    rw [List.foldl_cons]
    exact ih _ (copy_images_step_keeps src st i k v h)

theorem copy_and_rename_step_keeps (src : List (Str × β)) (st : CopyRenameState β)
    (r : ProcessingResult) (k : Str) (v : β) (h : alookup st.dst k = some v) :
    alookup (copy_and_rename_step src st r).dst k = some v := by
  cases hs : alookup src r.original_path with
  | none => simpa [copy_and_rename_step, hs] using h
  | some c =>
    cases hd : alookup st.dst (if r.needs_rename then
        (extract_directory_and_filename r.new_path).2
      else (extract_directory_and_filename r.original_path).2) with
    | some d2 => simpa [copy_and_rename_step, hs, hd] using h
    | none =>
      rw [copy_and_rename_step]
      simp only [hs, hd]
      exact alookup_append_left _ _ _ _ h

theorem copy_and_rename_fold_keeps (results : List ProcessingResult)
    (src : List (Str × β)) (st : CopyRenameState β) (k : Str) (v : β)
    (h : alookup st.dst k = some v) :
    alookup (results.foldl (copy_and_rename_step src) st).dst k = some v := by
  induction results generalizing st with
  | nil => simpa using h
  | cons r t ih =>
    rw [List.foldl_cons]
    exact ih _ (copy_and_rename_step_keeps src st r k v h)

/-- C7: in both pipelines a copy whose destination already exists is
reported under "skipped" and changes nothing else (the destination map,
copied, failed and missing/failed lists are untouched), and a destination
entry present before a copy run is still present, unmodified, afterwards
(never overwritten). -/
theorem C7_copy_skip_no_overwrite :
    (∀ (β : Type) (src : List (Str × β)) (st : CopyImagesState β) (image : Str)
        (c d : β), alookup src image = some c → alookup st.dst image = some d →
      copy_images_step src st image =
        { st with skippedRep := st.skippedRep ++ [image] }) ∧
      (∀ (β : Type) (imgs : List Str) (src dst0 : List (Str × β)) (k : Str) (v : β),
        alookup dst0 k = some v → alookup (copy_images imgs src dst0).dst k = some v) ∧
      (∀ (β : Type) (src : List (Str × β)) (st : CopyRenameState β)
          (r : ProcessingResult) (c d : β), alookup src r.original_path = some c →
        alookup st.dst (if r.needs_rename then
            (extract_directory_and_filename r.new_path).2
          else (extract_directory_and_filename r.original_path).2) = some d →
        copy_and_rename_step src st r =
          { st with skipped := st.skipped + 1,
                    skippedRep := st.skippedRep ++
                      [if r.needs_rename then
                          (extract_directory_and_filename r.new_path).2
                        else (extract_directory_and_filename r.original_path).2] }) ∧
      (∀ (β : Type) (results : List ProcessingResult) (src dst0 : List (Str × β))
          (k : Str) (v : β), alookup dst0 k = some v →
        alookup (copy_and_rename_figures results src dst0).dst k = some v) := by
  refine ⟨?_, ?_, ?_, ?_⟩
  · intro β src st image c d h1 h2
    simp [copy_images_step, h1, h2]
  · intro β imgs src dst0 k v h
    exact copy_images_fold_keeps imgs src _ k v h
  · intro β src st r c d h1 h2
    rw [copy_and_rename_step]
    simp only [h1, h2]
  · intro β results src dst0 k v h
    exact copy_and_rename_fold_keeps results src _ k v h

/-- C7 witness: the skip branch and the no-overwrite invariant at a concrete
one-file directory. -/
theorem C7_witness :
    copy_images_step [(strL "a.png", (1 : Nat))]
        ⟨[(strL "a.png", 7)], [], [], [], []⟩ (strL "a.png") =
      { dst := [(strL "a.png", 7)], copied := [], missing := [], failed := [],
        skippedRep := [strL "a.png"] } ∧
      alookup (copy_images [strL "a.png"] [(strL "a.png", (1 : Nat))]
        [(strL "a.png", 7)]).dst (strL "a.png") = some 7 :=
  ⟨C7_copy_skip_no_overwrite.1 Nat _ _ _ 1 7 (by rfl) (by rfl),
    C7_copy_skip_no_overwrite.2.1 Nat [strL "a.png"] _ _ _ 7 (by rfl)⟩

/-! ### Claim C10 — only environments with recognized images are kept -/

theorem imagesInFigure_image (text content : Str) (figStart : Nat) (ii : ImageInfo)
    (h : ii ∈ imagesInFigure text content figStart) :
    is_image_file ii.path = true := by
  simp only [imagesInFigure, List.mem_filterMap] at h
  obtain ⟨m, hm, hf⟩ := h
  by_cases hi : is_image_file (stripWs m.2)
  · rw [if_pos hi] at hf
    rcases hp : pyFindFromN text (m.1 ++ m.2 ++ ['\x7d']) figStart with _ | cs
    · rw [hp] at hf
      exact absurd hf (by simp)
    · rw [hp] at hf
      simp only [Option.some.injEq] at hf
      subst hf
      exact hi
  · rw [if_neg hi] at hf
    exact absurd hf (by simp)

/-- C10: every `FigureEnvironment` stored by `extract_figure_environments`
has a nonempty image list, and every stored image path passes
`is_image_file` (extension or figure-keyword test); environments whose
paths all fail the test are dropped and get no ordinal. -/
theorem C10_figure_environment_invariant (text : Str) (env : FigureEnvironment)
    (h : env ∈ extract_figure_environments text) :
    env.images ≠ [] ∧ ∀ img ∈ env.images, is_image_file img.path = true := by
  have h1 : env ∈ (figureSpans text).filterMap (fun sp =>
      let imgs := sortKey (fun im => (im.position_in_doc : Int))
        (imagesInFigure text ((text.drop sp.1).take (sp.2 - sp.1)) sp.1)
      if imgs.isEmpty then none
      else some ⟨sp.1, (text.drop sp.1).take (sp.2 - sp.1), imgs⟩) :=
    ((sortKey_perm (fun e : FigureEnvironment => (e.position : Int)) _).mem_iff).mp h
  simp only [List.mem_filterMap] at h1
  obtain ⟨sp, hsp, heq⟩ := h1
  by_cases hi : (sortKey (fun im => (im.position_in_doc : Int))
      (imagesInFigure text ((text.drop sp.1).take (sp.2 - sp.1)) sp.1)).isEmpty
  · rw [if_pos hi] at heq
    exact absurd heq (by simp)
  · rw [if_neg hi] at heq
    simp only [Option.some.injEq] at heq
    subst heq
    refine ⟨by simpa [List.isEmpty_iff] using hi, ?_⟩
    intro img himg
    have h2 : img ∈ imagesInFigure text ((text.drop sp.1).take (sp.2 - sp.1)) sp.1 :=
      ((sortKey_perm (fun im : ImageInfo => (im.position_in_doc : Int)) _).mem_iff).mp himg
    exact imagesInFigure_image _ _ _ _ h2

/-- C10 witness: the invariant applied to the environment extracted from a
one-figure document, discharging the membership hypothesis there. -/
theorem C10_witness :
    w1env.images ≠ [] ∧ ∀ img ∈ w1env.images, is_image_file img.path = true :=
  C10_figure_environment_invariant w1doc w1env (by decide)

/-- C6 counterexample: on the document `\begin{figure}
\includegraphics{figures/}\end{figure}` (whose image has an empty basename),
the first run renames `figures/` to `figures/fig_1_`, and the second run on
the rewritten text produces a nonempty modifications map (`fig_1_` gets the
prefix prepended again), so the renamer is not idempotent as claimed. -/
theorem C6_counterexample :
    (analyzeTex (save_modified_tex c6doc (analyzeTex c6doc).2).1).2 ≠ [] := by decide

/-- C6 (amended): for every image basename that is nonempty and newline-free,
`generate_new_filename` is idempotent under the expected prefixes
`fig_<n>_` / `fig_s<n>_`: re-applying it to its own output yields the output
unchanged, so a second run adds no modification for such an image.  (The
document-level claim fails for empty basenames — see the counterexample.) -/
theorem C6_amended_generate_idempotent (s : Bool) (n : Nat) (f : Str)
    (hne : f ≠ []) (hnl : ∀ c ∈ f, c ≠ '\n') :
    generate_new_filename (generate_new_filename f (expectedPre s n))
        (expectedPre s n) =
      generate_new_filename f (expectedPre s n) := by
  rcases hpr : prefixRest f with _ | r
  · have hg : generate_new_filename f (expectedPre s n) = expectedPre s n ++ f := by
      rw [generate_new_filename, hpr]
    have h2 : prefixRest (expectedPre s n ++ f) = some f := by
      have h3 := prefixRest_sound s (natDigits n) f [] (natDigits_ne_nil n)
        (natDigits_digits n) hne hnl (Or.inl rfl)
      simpa [expectedPre] using h3
    rw [hg, generate_new_filename, h2]
  · obtain ⟨s0, ds0, nl0, hds0, hdig0, hrne, hrnl, hnl0, hf0⟩ :=
      prefixRest_complete f r hpr
    have hg : generate_new_filename f (expectedPre s n) = expectedPre s n ++ r := by
      rw [generate_new_filename, hpr]
    have h2 : prefixRest (expectedPre s n ++ r) = some r := by
      have h3 := prefixRest_sound s (natDigits n) r [] (natDigits_ne_nil n)
        (natDigits_digits n) hrne hrnl (Or.inl rfl)
      simpa [expectedPre] using h3
    rw [hg, generate_new_filename, h2]

/-- C6 witness: idempotence at the concrete basename `plot` and prefix
`fig_1_`. -/
theorem C6_witness :
    generate_new_filename (generate_new_filename (strL "plot") (expectedPre false 1))
        (expectedPre false 1) =
      generate_new_filename (strL "plot") (expectedPre false 1) :=
  C6_amended_generate_idempotent false 1 (strL "plot") (by decide) (by decide)

/-- C1 counterexample: on a document whose figure holds the image `fig_1_`
(basename exactly a recognized-looking prefix, empty remainder), the claim's
strip-and-replace rule keeps `fig_1_` (no rename), but the code's pattern
`^fig_s?(\d+)_(.+)$` needs a nonempty remainder, so `generate_new_filename`
prepends and plans a rename to `fig_1_fig_1_`: the claimed plan differs from
the computed plan. -/
theorem C1_counterexample : claimPlanTex c1doc ≠ (analyzeTex c1doc).1 := by decide

theorem map_fst_processEnvs (isApp : Bool) (l : List FigureEnvironment) :
    (processEnvs isApp l).map (fun s => s.1) =
      (enumFromN 1 l).bind (fun p => p.2.images.map (amendedPlanEntry isApp p.1)) := by
  rw [processEnvs]
  generalize enumFromN 1 l = E
  induction E with
  | nil => rfl
  | cons p t ih =>
    simp only [List.cons_bind, List.map_append, List.map_map]
    rw [ih]
    rfl

theorem figSpansAux_pos_lt (text : Str) (fuel : Nat) :
    ∀ i, ∀ sp ∈ figSpansAux text i fuel, sp.1 < text.length := by
  induction fuel with
  | zero =>
    intro i sp h
    simp [figSpansAux] at h
  | succ fuel ih =>
    intro i sp h
    rw [figSpansAux] at h
    split at h
    · rename_i bl heqb
      split at h
      · rename_i q heqq
        rcases List.mem_cons.mp h with rfl | h2
        · by_cases hi : i < text.length
          · exact hi
          · exfalso
            rw [List.drop_eq_nil_of_le (by omega)] at heqb
            rw [show figBeginLen [] = none from rfl] at heqb
            exact absurd heqb (by simp)
        · exact ih q sp h2
      · split at h
        · exact ih (i + 1) sp h
        · simp at h
    · split at h
      · exact ih (i + 1) sp h
      · simp at h

theorem extract_env_pos_lt (text : Str) :
    ∀ env ∈ extract_figure_environments text, env.position < text.length := by
  intro env h
  have h1 : env ∈ (figureSpans text).filterMap (fun sp =>
      let imgs := sortKey (fun im => (im.position_in_doc : Int))
        (imagesInFigure text ((text.drop sp.1).take (sp.2 - sp.1)) sp.1)
      if imgs.isEmpty then none
      else some ⟨sp.1, (text.drop sp.1).take (sp.2 - sp.1), imgs⟩) :=
    ((sortKey_perm (fun e : FigureEnvironment => (e.position : Int)) _).mem_iff).mp h
  simp only [List.mem_filterMap] at h1
  obtain ⟨sp, hsp, heq⟩ := h1
  by_cases hi : (sortKey (fun im => (im.position_in_doc : Int))
      (imagesInFigure text ((text.drop sp.1).take (sp.2 - sp.1)) sp.1)).isEmpty
  · rw [if_pos hi] at heq
    exact absurd heq (by simp)
  · rw [if_neg hi] at heq
    simp only [Option.some.injEq] at heq
    subst heq
    exact figSpansAux_pos_lt text (text.length + 1) 0 sp hsp

theorem processEnvs_entry_rename (isApp : Bool) (l : List FigureEnvironment)
    (s : ProcessingResult × Option (Str × Str)) (h : s ∈ processEnvs isApp l) :
    s.1.needs_rename = decide (s.1.original_path ≠ s.1.new_path) := by
  rw [processEnvs] at h
  simp only [List.mem_bind, List.mem_map] at h
  obtain ⟨p, hp, img, himg, heq⟩ := h
  subst heq
  rfl

/-- C1 (amended): `analyze_all_figures` computes exactly the plan described
by the claim once the recognized prefix is the code's
`^fig_s?(\d+)_(.+)$` (nonempty, newline-free remainder): the environments
are split by comparing positions with the appendix offset, each partition is
numbered from 1 in order, the new basename strips a recognized prefix (as
characterized declaratively) or prepends the expected one, every entry has
`needs_rename` iff the paths differ, and with no `\appendix` marker every
extracted environment counts as main text. -/
theorem C1_amended :
    (∀ (envs : List FigureEnvironment) (ap : Nat),
      (analyze_all_figures envs ap).1 = amendedPlan envs ap) ∧
      (∀ (pre : Str) (s : Bool) (ds r nl : Str), ds ≠ [] →
        (∀ c ∈ ds, isDigitCh c = true) → r ≠ [] → (∀ c ∈ r, c ≠ '\n') →
        (nl = [] ∨ nl = ['\n']) →
        generate_new_filename (figTok s ds ++ (r ++ nl)) pre = pre ++ r) ∧
      (∀ (pre f : Str),
        (¬ ∃ (s : Bool) (ds r nl : Str), ds ≠ [] ∧ (∀ c ∈ ds, isDigitCh c = true) ∧
          r ≠ [] ∧ (∀ c ∈ r, c ≠ '\n') ∧ (nl = [] ∨ nl = ['\n']) ∧
          f = figTok s ds ++ (r ++ nl)) →
        generate_new_filename f pre = pre ++ f) ∧
      (∀ (envs : List FigureEnvironment) (ap : Nat),
        ∀ e ∈ (analyze_all_figures envs ap).1,
          e.needs_rename = true ↔ e.original_path ≠ e.new_path) ∧
      (∀ text : Str, findAppendixIdx text = none →
        (extract_figure_environments text).filter
          (fun e => !(decide (e.position < find_appendix_position text))) = []) := by
  refine ⟨?_, ?_, ?_, ?_, ?_⟩
  · intro envs ap
    rw [show (analyze_all_figures envs ap).1 =
      (processEnvs false (envs.partition (fun e => decide (e.position < ap))).1 ++
        processEnvs true (envs.partition (fun e => decide (e.position < ap))).2).map
          (fun s => s.1) from rfl]
    rw [List.map_append, map_fst_processEnvs, map_fst_processEnvs,
      List.partition_eq_filter_filter]
    rw [amendedPlan]
    congr 1
  · intro pre s ds r nl hds hdig hr hrn hnl
    rw [generate_new_filename, prefixRest_sound s ds r nl hds hdig hr hrn hnl]
  · intro pre f hnex
    rcases hpr : prefixRest f with _ | r
    · rw [generate_new_filename, hpr]
    · exfalso
      obtain ⟨s, ds, nl, hds, hdig, hrne, hrn, hnl, hf⟩ := prefixRest_complete f r hpr
      exact hnex ⟨s, ds, r, nl, hds, hdig, hrne, hrn, hnl, hf⟩
  · intro envs ap e he
    rw [show (analyze_all_figures envs ap).1 =
      (processEnvs false (envs.partition (fun e => decide (e.position < ap))).1 ++
        processEnvs true (envs.partition (fun e => decide (e.position < ap))).2).map
          (fun s => s.1) from rfl, List.map_append] at he
    rcases List.mem_append.mp he with he | he <;>
    · obtain ⟨s, hs, rfl⟩ := List.mem_map.mp he
      rw [processEnvs_entry_rename _ _ s hs]
      exact decide_eq_true_iff
  · intro text h
    rw [List.filter_eq_nil]
    intro e he
    have hlt := extract_env_pos_lt text e he
    have hap : find_appendix_position text = text.length := by
      rw [find_appendix_position, h]
    simp [hap, hlt]

/-- C1 witness: the rename rule applied at the concrete basename
`fig_12_old.png` with expected prefix `fig_2_` (prefix stripped and
replaced), and the no-marker conjunct at the empty document. -/
theorem C1_witness :
    generate_new_filename (figTok false (strL "12") ++ (strL "old.png" ++ []))
        (strL "fig_2_") = strL "fig_2_" ++ strL "old.png" ∧
      (extract_figure_environments []).filter
        (fun e => !(decide (e.position < find_appendix_position []))) = [] :=
  ⟨C1_amended.2.1 (strL "fig_2_") false (strL "12") (strL "old.png") []
      (by decide) (by decide) (by decide) (by decide) (Or.inl rfl),
    C1_amended.2.2.2.2 [] (by rfl)⟩
